import Mathlib

/-!
Verification of the `hogwild` shared-array crate (`src/hogwild/src/lib.rs`)
and the `finalfrontier` numeric stability helper
(`src/finalfrontier/src/util.rs`) via a shallow embedding.

Modelling choices:

* An `ndarray::Array<A, D>` is a dense row-major buffer: a shape (the list of
  extents) together with the flat element data (`NdArray`).  The generic
  dimension parameter `D` (`Ix1`, `Ix2`, `Ix3`, ...) becomes the length of the
  shape list.
* `HogwildArray<A, D>` is `Arc<UnsafeCell<Array<A, D>>>`: a pointer into a
  heap of reference-counted allocations.  The heap (`HogwildStore`) maps an
  allocation id to the shared array and its strong count; a handle is just an
  id.  `clone` (derived, hence `Arc::clone`) returns a handle with the same id
  and bumps the count.  Reads and writes through any handle go to the single
  allocation behind the shared id — this is exactly the aliasing the crate
  provides.
* Rust functions that only read (`view`, `view_mut` construction, `subview`,
  `subview_mut`, `as_slice`, `as_ref`) are pure functions of the store; the
  ones that mutate (`clone`, element assignment through a mutable view) return
  an updated store.
* `ndarray` panics on an out-of-bounds `subview` axis/index; the panic is
  modelled as `none`.  Out-of-bounds element writes (which would also panic)
  are modelled as leaving the buffer unchanged; all claims only exercise
  in-bounds coordinates.
* Owned arrays wrapped by the crate are modelled in standard (row-major,
  contiguous) layout, so `as_slice` always succeeds, matching
  `ndarray::Array::as_slice` on standard-layout data.
* `f32` is modelled by the real numbers; `f32::ln` by `Real.log`.
-/

/-- Dense row-major N-dimensional buffer modelling `ndarray::Array<A, D>`:
the shape (list of extents) and the flat element data. -/
structure NdArray (A : Type) where
  shape : List Nat
  data : List A
  deriving DecidableEq

/-- A multi-index is in bounds for a shape when it has the same length and is
componentwise below the extents. -/
def inBounds : List Nat → List Nat → Bool
  | [], [] => true
  | d :: ds, i :: is => decide (i < d) && inBounds ds is
  | _, _ => false

/-- Row-major flat offset of a multi-index in a buffer of the given shape. -/
def flatIndex : List Nat → List Nat → Nat
  | _ :: ds, i :: is => i * ds.prod + flatIndex ds is
  | _, _ => 0

/-- Well-formedness of a buffer: the flat data has exactly one element per
point of the shape. -/
def NdArray.wf {A : Type} (a : NdArray A) : Prop :=
  a.data.length = a.shape.prod

/-- Reading one element of a buffer at a multi-index (through any view). -/
def NdArray.get {A : Type} (a : NdArray A) (ix : List Nat) : Option A :=
  if inBounds a.shape ix then a.data[flatIndex a.shape ix]? else none

/-- Writing one element of a buffer at a multi-index (through a mutable
view).  `ndarray` panics out of bounds; that case is modelled as leaving the
buffer unchanged and is never exercised by the claims. -/
def NdArray.set {A : Type} (a : NdArray A) (ix : List Nat) (v : A) : NdArray A :=
  if inBounds a.shape ix then { a with data := a.data.set (flatIndex a.shape ix) v } else a

/-- `Array::subview(Axis(axis), index)`: the dimension-reduced view fixing
one axis to one index.  `ndarray` panics when the axis or index is out of the
buffer extents; the panic is modelled as `none`. -/
def NdArray.subview {A : Type} (a : NdArray A) (axis index : Nat) : Option (NdArray A) :=
  if axis < a.shape.length ∧ index < a.shape.getD axis 0 then
    some { shape := a.shape.eraseIdx axis,
           data := (List.range a.data.length).filterMap fun j =>
             if (j / (a.shape.drop (axis + 1)).prod) % a.shape.getD axis 0 = index
             then a.data[j]? else none }
  else none

/-- `Array::as_slice`: the flat data of a standard-layout buffer.  Buffers
are modelled in standard layout, where `ndarray` always returns `Some`. -/
def NdArray.as_slice {A : Type} (a : NdArray A) : Option (List A) :=
  some a.data

/-- The heap of reference-counted hogwild allocations: each entry is the
array behind one `Arc<UnsafeCell<Array<A, D>>>` together with its strong
count. -/
structure HogwildStore (A : Type) where
  allocs : List (NdArray A × Nat)
  deriving DecidableEq

/-- `HogwildArray<A, D>`: a handle, i.e. an `Arc` pointer to one shared
allocation. -/
structure HogwildArray where
  id : Nat
  deriving DecidableEq

/-- `impl From<Array<A, D>> for HogwildArray<A, D>`: wrap an owned array in a
fresh `Arc<UnsafeCell<_>>` (strong count 1).  Total: there is no failure
path and no validation. -/
def HogwildArray.ofArray {A : Type} (a : NdArray A) (s : HogwildStore A) :
    HogwildArray × HogwildStore A :=
  (⟨s.allocs.length⟩, ⟨s.allocs ++ [(a, 1)]⟩)

/-- `#[derive(Clone)]`, i.e. `Arc::clone`: a new handle with the same id;
the strong count of the shared allocation is incremented and no element data
is copied. -/
def HogwildArray.clone {A : Type} (h : HogwildArray) (s : HogwildStore A) :
    HogwildArray × HogwildStore A :=
  (⟨h.id⟩,
    match s.allocs[h.id]? with
    | some (a, rc) => ⟨s.allocs.set h.id (a, rc + 1)⟩
    | none => s)

/-- `HogwildArray::view` (`self.as_ref().view()`): dereference the shared
pointer and read the whole buffer.  Pure: the store is not modified. -/
def HogwildArray.view {A : Type} (h : HogwildArray) (s : HogwildStore A) :
    Option (NdArray A) :=
  (s.allocs[h.id]?).map Prod.fst

/-- `HogwildArray::view_mut` (`self.as_mut().view_mut()`): obtaining the
mutable view only reads the shared pointer; by itself it writes no element. -/
def HogwildArray.view_mut {A : Type} (h : HogwildArray) (s : HogwildStore A) :
    Option (NdArray A) :=
  (s.allocs[h.id]?).map Prod.fst

/-- `HogwildArray::subview`: immutable dimension-reduced view of the shared
buffer. -/
def HogwildArray.subview {A : Type} (h : HogwildArray) (axis index : Nat)
    (s : HogwildStore A) : Option (NdArray A) :=
  (h.view s).bind fun a => a.subview axis index

/-- `HogwildArray::subview_mut`: mutable dimension-reduced view; obtaining it
writes nothing. -/
def HogwildArray.subview_mut {A : Type} (h : HogwildArray) (axis index : Nat)
    (s : HogwildStore A) : Option (NdArray A) :=
  (h.view s).bind fun a => a.subview axis index

/-- `HogwildArray::as_slice`: flat read-only slice of the shared buffer. -/
def HogwildArray.as_slice {A : Type} (h : HogwildArray) (s : HogwildStore A) :
    Option (List A) :=
  (h.view s).bind fun a => a.as_slice

/-- One element assignment `h.view_mut()[ix] = v` through a mutable view
obtained from handle `h`: updates the shared allocation in place. -/
def HogwildArray.write {A : Type} (h : HogwildArray) (ix : List Nat) (v : A)
    (s : HogwildStore A) : HogwildStore A :=
  match s.allocs[h.id]? with
  | some (a, rc) => ⟨s.allocs.set h.id (a.set ix v, rc)⟩
  | none => s

/-- Sequential application of a batch of writes, each through its own handle
(`(handle, coordinate, value)`).  An interleaved concurrent execution of
several writers is some permutation of this list. -/
def applyWrites {A : Type} (ws : List (HogwildArray × List Nat × A))
    (s : HogwildStore A) : HogwildStore A :=
  ws.foldl (fun t w => w.1.write w.2.1 w.2.2 t) s

/-- The heap of reference-counted generic `Hogwild<T>` cells. -/
structure CellStore (T : Type) where
  allocs : List (T × Nat)
  deriving DecidableEq

/-- `Hogwild<T>`: a handle (`Arc` pointer) to one shared cell. -/
structure Hogwild where
  id : Nat
  deriving DecidableEq

/-- `impl Default for Hogwild<T>`: allocate a fresh shared cell holding
`T::default()` (strong count 1). -/
def Hogwild.default (T : Type) [Inhabited T] (s : CellStore T) :
    Hogwild × CellStore T :=
  (⟨s.allocs.length⟩, ⟨s.allocs ++ [(Inhabited.default, 1)]⟩)

/-- `#[derive(Clone)]` for `Hogwild<T>`: same pointer, count incremented. -/
def Hogwild.clone {T : Type} (h : Hogwild) (s : CellStore T) :
    Hogwild × CellStore T :=
  (⟨h.id⟩,
    match s.allocs[h.id]? with
    | some (v, rc) => ⟨s.allocs.set h.id (v, rc + 1)⟩
    | none => s)

/-- `impl Deref for Hogwild<T>`: read the shared cell. -/
def Hogwild.deref {T : Type} (h : Hogwild) (s : CellStore T) : Option T :=
  (s.allocs[h.id]?).map Prod.fst

/-- Assignment `*h = v` through `impl DerefMut for Hogwild<T>`: overwrite the
shared cell in place. -/
def Hogwild.deref_set {T : Type} (h : Hogwild) (v : T) (s : CellStore T) :
    CellStore T :=
  match s.allocs[h.id]? with
  | some (_, rc) => ⟨s.allocs.set h.id (v, rc)⟩
  | none => s

/-- `NEGATIVE_TOLERANCE` from `finalfrontier/src/util.rs`: tolerance for
small negative values, `1e-5`. -/
noncomputable def NEGATIVE_TOLERANCE : ℝ := 1 / 100000

/-- `safe_ln` from `finalfrontier/src/util.rs`: add a small value to prevent
returning `-inf` on underflow, `(v + NEGATIVE_TOLERANCE).ln()`.  `f32` is
modelled by `ℝ` and `f32::ln` by `Real.log`. -/
noncomputable def safe_ln (v : ℝ) : ℝ :=
  Real.log (v + NEGATIVE_TOLERANCE)

/-! ### Helper lemmas about the embedding -/

lemma inBounds_cons {d : Nat} {ds : List Nat} {i : Nat} {is : List Nat} :
    inBounds (d :: ds) (i :: is) = true ↔ i < d ∧ inBounds ds is = true := by
  simp [inBounds]

lemma flatIndex_lt_prod : ∀ (ds is : List Nat), inBounds ds is = true →
    flatIndex ds is < ds.prod
  | [], [], _ => by simp [flatIndex]
  | [], _ :: _, h => by simp [inBounds] at h
  | _ :: _, [], h => by simp [inBounds] at h
  | d :: ds, i :: is, h => by
      obtain ⟨hi, hrest⟩ := inBounds_cons.mp h
      have ih := flatIndex_lt_prod ds is hrest
      calc flatIndex (d :: ds) (i :: is) = i * ds.prod + flatIndex ds is := rfl
        _ < i * ds.prod + ds.prod := Nat.add_lt_add_left ih _
        _ = (i + 1) * ds.prod := by ring
        _ ≤ d * ds.prod := Nat.mul_le_mul_right ds.prod hi
        _ = (d :: ds).prod := (List.prod_cons).symm

lemma flatIndex_inj : ∀ (ds is1 is2 : List Nat), inBounds ds is1 = true →
    inBounds ds is2 = true → flatIndex ds is1 = flatIndex ds is2 → is1 = is2
  | [], [], [], _, _, _ => rfl
  | [], _ :: _, _, h, _, _ => by simp [inBounds] at h
  | [], [], _ :: _, _, h, _ => by simp [inBounds] at h
  | _ :: _, [], _, h, _, _ => by simp [inBounds] at h
  | _ :: _, _ :: _, [], _, h, _ => by simp [inBounds] at h
  | d :: ds, i1 :: t1, i2 :: t2, h1, h2, heq => by
      obtain ⟨hi1, hr1⟩ := inBounds_cons.mp h1
      obtain ⟨hi2, hr2⟩ := inBounds_cons.mp h2
      have hf1 : flatIndex ds t1 < ds.prod := flatIndex_lt_prod ds t1 hr1
      have hf2 : flatIndex ds t2 < ds.prod := flatIndex_lt_prod ds t2 hr2
      have hP : 0 < ds.prod := Nat.lt_of_le_of_lt (Nat.zero_le _) hf1
      have heq2 : i1 * ds.prod + flatIndex ds t1 = i2 * ds.prod + flatIndex ds t2 := heq
      have e1 : (i1 * ds.prod + flatIndex ds t1) / ds.prod = i1 := by
        rw [Nat.mul_comm, Nat.mul_add_div hP, Nat.div_eq_of_lt hf1]
        exact Nat.add_zero i1
      have e2 : (i2 * ds.prod + flatIndex ds t2) / ds.prod = i2 := by
        rw [Nat.mul_comm, Nat.mul_add_div hP, Nat.div_eq_of_lt hf2]
        exact Nat.add_zero i2
      have hi : i1 = i2 := by rw [← e1, ← e2, heq2]
      subst hi
      have hf : flatIndex ds t1 = flatIndex ds t2 := Nat.add_left_cancel heq2
      have ht : t1 = t2 := flatIndex_inj ds t1 t2 hr1 hr2 hf
      rw [ht]

lemma NdArray.shape_set {A : Type} (a : NdArray A) (ix : List Nat) (v : A) :
    (a.set ix v).shape = a.shape := by
  unfold NdArray.set
  split <;> rfl

lemma NdArray.wf_set {A : Type} (a : NdArray A) (ix : List Nat) (v : A)
    (hwf : a.wf) : (a.set ix v).wf := by
  unfold NdArray.wf NdArray.set at *
  split <;> simpa using hwf

lemma NdArray.get_set_self {A : Type} (a : NdArray A) (ix : List Nat) (v : A)
    (hwf : a.wf) (hib : inBounds a.shape ix = true) :
    (a.set ix v).get ix = some v := by
  have hlt : flatIndex a.shape ix < a.data.length := by
    rw [hwf]
    exact flatIndex_lt_prod _ _ hib
  simp only [NdArray.get, NdArray.set, if_pos hib]
  exact List.getElem?_set_self hlt

lemma NdArray.get_set_ne {A : Type} (a : NdArray A) (ix jx : List Nat) (v : A)
    (hne : ix ≠ jx) : (a.set ix v).get jx = a.get jx := by
  by_cases hib : inBounds a.shape ix = true
  · by_cases hjb : inBounds a.shape jx = true
    · have hfl : flatIndex a.shape ix ≠ flatIndex a.shape jx := fun hcon =>
        hne (flatIndex_inj _ _ _ hib hjb hcon)
      simp only [NdArray.get, NdArray.set, if_pos hib, if_pos hjb]
      exact List.getElem?_set_ne hfl
    · simp only [NdArray.get, NdArray.set, if_pos hib, if_neg hjb]
  · simp only [NdArray.set, if_neg hib]

lemma NdArray.set_comm {A : Type} (a : NdArray A) (ix jx : List Nat) (v w : A)
    (hne : ix ≠ jx) : (a.set ix v).set jx w = (a.set jx w).set ix v := by
  by_cases hib : inBounds a.shape ix = true
  · by_cases hjb : inBounds a.shape jx = true
    · have hfl : flatIndex a.shape ix ≠ flatIndex a.shape jx := fun hcon =>
        hne (flatIndex_inj _ _ _ hib hjb hcon)
      simp only [NdArray.set, if_pos hib, if_pos hjb]
      exact congrArg (NdArray.mk a.shape) (List.set_comm v w a.data hfl)
    · simp [NdArray.set, hib, hjb]
  · by_cases hjb : inBounds a.shape jx = true
    · simp [NdArray.set, hib, hjb]
    · simp [NdArray.set, hib, hjb]

lemma lt_length_of_lookup {α : Type} {l : List α} {n : Nat} {x : α}
    (h : l[n]? = some x) : n < l.length := by
  rcases List.getElem?_eq_some.mp h with ⟨hlt, _⟩
  exact hlt

lemma HogwildArray.write_lookup_some {A : Type} (h : HogwildArray) (ix : List Nat)
    (v : A) (s : HogwildStore A) (a : NdArray A) (rc : Nat)
    (hl : s.allocs[h.id]? = some (a, rc)) :
    h.write ix v s = ⟨s.allocs.set h.id (a.set ix v, rc)⟩ := by
  unfold HogwildArray.write
  rw [hl]

lemma HogwildArray.write_lookup_none {A : Type} (h : HogwildArray) (ix : List Nat)
    (v : A) (s : HogwildStore A) (hl : s.allocs[h.id]? = none) :
    h.write ix v s = s := by
  unfold HogwildArray.write
  rw [hl]

lemma HogwildArray.clone_lookup_some {A : Type} (h : HogwildArray)
    (s : HogwildStore A) (a : NdArray A) (rc : Nat)
    (hl : s.allocs[h.id]? = some (a, rc)) :
    h.clone s = (⟨h.id⟩, ⟨s.allocs.set h.id (a, rc + 1)⟩) := by
  unfold HogwildArray.clone
  rw [hl]

lemma HogwildArray.write_comm {A : Type} (h1 h2 : HogwildArray) (ix jx : List Nat)
    (v w : A) (hid : h1.id = h2.id) (hne : ix ≠ jx) (s : HogwildStore A) :
    h2.write jx w (h1.write ix v s) = h1.write ix v (h2.write jx w s) := by
  obtain ⟨m⟩ := h1
  obtain ⟨n⟩ := h2
  replace hid : m = n := hid
  subst hid
  cases hl : s.allocs[m]? with
  | none =>
      have e1 : HogwildArray.write ⟨m⟩ ix v s = s :=
        HogwildArray.write_lookup_none _ _ _ _ hl
      have e2 : HogwildArray.write ⟨m⟩ jx w s = s :=
        HogwildArray.write_lookup_none _ _ _ _ hl
      rw [e1, e2, e1]
  | some p =>
      obtain ⟨a, rc⟩ := p
      have hlt : m < s.allocs.length := lt_length_of_lookup hl
      have e1 : HogwildArray.write ⟨m⟩ ix v s = ⟨s.allocs.set m (a.set ix v, rc)⟩ :=
        HogwildArray.write_lookup_some _ _ _ _ _ _ hl
      have e2 : HogwildArray.write ⟨m⟩ jx w s = ⟨s.allocs.set m (a.set jx w, rc)⟩ :=
        HogwildArray.write_lookup_some _ _ _ _ _ _ hl
      have f1 : (s.allocs.set m (a.set ix v, rc))[m]? = some (a.set ix v, rc) :=
        List.getElem?_set_self (by simpa using hlt)
      have f2 : (s.allocs.set m (a.set jx w, rc))[m]? = some (a.set jx w, rc) :=
        List.getElem?_set_self (by simpa using hlt)
      rw [e1, e2]
      rw [HogwildArray.write_lookup_some _ _ _ _ _ _ f1,
          HogwildArray.write_lookup_some _ _ _ _ _ _ f2]
      rw [List.set_set, List.set_set, NdArray.set_comm a ix jx v w hne]

lemma NEGATIVE_TOLERANCE_pos : 0 < NEGATIVE_TOLERANCE := by
  unfold NEGATIVE_TOLERANCE
  norm_num

lemma exp_ten_lt : Real.exp 10 < 50000 := by
  have h1 : Real.exp 1 < 2.7182818286 := Real.exp_one_lt_d9
  have h2 : Real.exp (10:ℝ) = Real.exp 1 ^ (10:ℕ) := by
    rw [Real.exp_one_pow]
    norm_num
  rw [h2]
  calc Real.exp 1 ^ (10:ℕ) ≤ 2.7182818286 ^ (10:ℕ) :=
        pow_le_pow_left₀ (Real.exp_pos 1).le h1.le 10
    _ < 50000 := by norm_num

lemma exp_twelve_gt : (100000:ℝ) < Real.exp 12 := by
  have h1 : (2.7182818283:ℝ) < Real.exp 1 := Real.exp_one_gt_d9
  have h2 : Real.exp (12:ℝ) = Real.exp 1 ^ (12:ℕ) := by
    rw [Real.exp_one_pow]
    norm_num
  rw [h2]
  calc (100000:ℝ) < 2.7182818283 ^ (12:ℕ) := by norm_num
    _ ≤ Real.exp 1 ^ (12:ℕ) := pow_le_pow_left₀ (by norm_num) h1.le 12

/-! ### Claim theorems -/

/-- C3: `safe_ln` (the spec calls it `stable_log`) returns exactly
`ln (x + ε)` for the one small fixed positive constant
`ε = NEGATIVE_TOLERANCE = 1e-5`, for every input; it is a pure function of
its argument (modelled as a mathematical function, which has no side
effects by construction). -/
theorem safe_ln_is_shifted_log :
    (0 < NEGATIVE_TOLERANCE ∧ NEGATIVE_TOLERANCE = 1 / 100000) ∧
    ∀ x : ℝ, safe_ln x = Real.log (x + NEGATIVE_TOLERANCE) :=
  ⟨⟨NEGATIVE_TOLERANCE_pos, rfl⟩, fun _ => rfl⟩

/-- C4: the stability helper never fails: it is a total function, returning
`Real.log (y + NEGATIVE_TOLERANCE)` for every input `y`; and for every input
at or below the chosen epsilon (in particular far below it) it returns a
large-magnitude negative number (below `-10`) rather than an error. -/
theorem safe_ln_total_and_large_negative (x y : ℝ) (hx0 : 0 ≤ x)
    (hx1 : x ≤ NEGATIVE_TOLERANCE) :
    safe_ln x < -10 ∧ safe_ln y = Real.log (y + NEGATIVE_TOLERANCE) := by
  constructor
  · have heps := NEGATIVE_TOLERANCE_pos
    have hpos : 0 < x + NEGATIVE_TOLERANCE := by linarith
    have hexp : x + NEGATIVE_TOLERANCE < Real.exp (-10) := by
      rw [Real.exp_neg]
      have hinv : (50000:ℝ)⁻¹ < (Real.exp 10)⁻¹ :=
        inv_strictAnti₀ (Real.exp_pos 10) exp_ten_lt
      calc x + NEGATIVE_TOLERANCE ≤ 2 * NEGATIVE_TOLERANCE := by linarith
        _ = (50000:ℝ)⁻¹ := by
              unfold NEGATIVE_TOLERANCE
              norm_num
        _ < (Real.exp 10)⁻¹ := hinv
    have hlog := (Real.log_lt_iff_lt_exp hpos).mpr hexp
    simpa [safe_ln] using hlog
  · rfl

/-- C4 witness: at the concrete input `x = 0`. -/
theorem safe_ln_total_and_large_negative_witness :
    (0:ℝ) ≤ 0 ∧ (0:ℝ) ≤ NEGATIVE_TOLERANCE ∧
      (safe_ln 0 < -10 ∧ safe_ln 0 = Real.log (0 + NEGATIVE_TOLERANCE)) :=
  ⟨le_rfl, NEGATIVE_TOLERANCE_pos.le,
    safe_ln_total_and_large_negative 0 0 le_rfl NEGATIVE_TOLERANCE_pos.le⟩

/-- C5: stability helper boundary: `safe_ln 0` is a finite negative number
(strictly between `-12` and `0`, so neither `-∞` nor NaN);
`safe_ln (1 - ε) = 0` exactly; and for every `x ≥ 1` (much larger than ε)
`safe_ln x` is within `ε` of the ordinary logarithm `Real.log x`. -/
theorem stable_log_boundary (x : ℝ) (hx : 1 ≤ x) :
    (safe_ln 0 < 0 ∧ -12 < safe_ln 0) ∧
    safe_ln (1 - NEGATIVE_TOLERANCE) = 0 ∧
    |safe_ln x - Real.log x| ≤ NEGATIVE_TOLERANCE := by
  have heps := NEGATIVE_TOLERANCE_pos
  have h0 : safe_ln 0 = Real.log NEGATIVE_TOLERANCE := by
    unfold safe_ln
    norm_num
  refine ⟨⟨?_, ?_⟩, ?_, ?_⟩
  · rw [h0]
    apply Real.log_neg heps
    unfold NEGATIVE_TOLERANCE
    norm_num
  · rw [h0]
    apply (Real.lt_log_iff_exp_lt heps).mpr
    rw [Real.exp_neg]
    have hinv : (Real.exp 12)⁻¹ < (100000:ℝ)⁻¹ :=
      inv_strictAnti₀ (by norm_num) exp_twelve_gt
    calc (Real.exp 12)⁻¹ < (100000:ℝ)⁻¹ := hinv
      _ = NEGATIVE_TOLERANCE := by
            unfold NEGATIVE_TOLERANCE
            norm_num
  · unfold safe_ln
    rw [show (1 - NEGATIVE_TOLERANCE + NEGATIVE_TOLERANCE : ℝ) = 1 by ring]
    exact Real.log_one
  · have hx0 : (0:ℝ) < x := lt_of_lt_of_le one_pos hx
    have hdiff : safe_ln x - Real.log x = Real.log ((x + NEGATIVE_TOLERANCE) / x) := by
      unfold safe_ln
      rw [Real.log_div (by linarith) (ne_of_gt hx0)]
    have hge : (1:ℝ) ≤ (x + NEGATIVE_TOLERANCE) / x := by
      rw [le_div_iff₀ hx0]
      linarith
    have hnn : 0 ≤ Real.log ((x + NEGATIVE_TOLERANCE) / x) := Real.log_nonneg hge
    have hub : Real.log ((x + NEGATIVE_TOLERANCE) / x) ≤ NEGATIVE_TOLERANCE := by
      have h1 := Real.log_le_sub_one_of_pos (lt_of_lt_of_le one_pos hge)
      have h2 : (x + NEGATIVE_TOLERANCE) / x - 1 = NEGATIVE_TOLERANCE / x := by
        field_simp
      have h3 : NEGATIVE_TOLERANCE / x ≤ NEGATIVE_TOLERANCE := div_le_self heps.le hx
      linarith
    rw [hdiff, abs_of_nonneg hnn]
    exact hub

/-- C5 witness: at the concrete input `x = 1`. -/
theorem stable_log_boundary_witness :
    (1:ℝ) ≤ 1 ∧ ((safe_ln 0 < 0 ∧ -12 < safe_ln 0) ∧
      safe_ln (1 - NEGATIVE_TOLERANCE) = 0 ∧
      |safe_ln 1 - Real.log 1| ≤ NEGATIVE_TOLERANCE) :=
  ⟨le_rfl, stable_log_boundary 1 le_rfl⟩

lemma view_write_get {A : Type} (g1 g2 : HogwildArray) (s : HogwildStore A)
    (a : NdArray A) (rc : Nat) (ix : List Nat) (v : A) (hid : g1.id = g2.id)
    (hl : s.allocs[g2.id]? = some (a, rc)) (hwf : a.wf)
    (hib : inBounds a.shape ix = true) :
    (g1.view (g2.write ix v s)).bind (fun b => b.get ix) = some v := by
  obtain ⟨m⟩ := g1
  obtain ⟨n⟩ := g2
  replace hid : m = n := hid
  subst hid
  have hlt : m < s.allocs.length := lt_length_of_lookup hl
  rw [HogwildArray.write_lookup_some _ _ _ _ _ _ hl]
  unfold HogwildArray.view
  rw [List.getElem?_set_self (by simpa using hlt)]
  simp [NdArray.get_set_self a ix v hwf hib]

/-- C9: for every array `a`, constructing a handle via
`HogwildArray::from(a)` always succeeds — `ofArray` is a total function with
no validation and no failure path — and reading the fresh handle through
`view` yields exactly the wrapped array: `a`'s shape and element values. -/
theorem ofArray_view_roundtrip {A : Type} (s : HogwildStore A) (a : NdArray A) :
    (HogwildArray.ofArray a s).1.view (HogwildArray.ofArray a s).2 = some a := by
  unfold HogwildArray.ofArray HogwildArray.view
  simp [List.getElem?_concat_length]

/-- C1: clone aliasing.  For a handle `h1` whose shared buffer is the
well-formed array `a` and a clone `(h2, s2) = h1.clone s`, the clone refers
to the identical storage (`h2.id = h1.id`; no element data is copied), and
for every in-bounds coordinate `ix`: writing `v` through `h2`'s mutable view
makes a read of `ix` through `h1`'s view return `v`, and symmetrically
writing `w` through `h1` is seen by a read through `h2`. -/
theorem clone_write_read_aliasing {A : Type} (s s2 : HogwildStore A)
    (h1 h2 : HogwildArray) (a : NdArray A) (ix : List Nat) (v w : A)
    (hclone : h1.clone s = (h2, s2)) (hview : h1.view s = some a)
    (hwf : a.wf) (hib : inBounds a.shape ix = true) :
    h2.id = h1.id ∧
    (h1.view (h2.write ix v s2)).bind (fun b => b.get ix) = some v ∧
    (h2.view (h1.write ix w s2)).bind (fun b => b.get ix) = some w := by
  obtain ⟨p, hp, hpa⟩ := Option.map_eq_some'.mp hview
  have hp2 : s.allocs[h1.id]? = some (a, p.2) := by
    rw [hp, ← hpa]
  have hlt : h1.id < s.allocs.length := lt_length_of_lookup hp2
  rw [HogwildArray.clone_lookup_some h1 s a p.2 hp2] at hclone
  injection hclone with hh hs
  subst hh
  subst hs
  have f0 : (s.allocs.set h1.id (a, p.2 + 1))[h1.id]? = some (a, p.2 + 1) :=
    List.getElem?_set_self (by simpa using hlt)
  refine ⟨rfl, ?_, ?_⟩
  · exact view_write_get h1 ⟨h1.id⟩ _ a (p.2 + 1) ix v rfl f0 hwf hib
  · exact view_write_get ⟨h1.id⟩ h1 _ a (p.2 + 1) ix w rfl f0 hwf hib

/-- C1 witness: a concrete 2×2 buffer of naturals, coordinate `(0, 1)`. -/
theorem clone_write_read_aliasing_witness :
    ((⟨0⟩ : HogwildArray).id = (⟨0⟩ : HogwildArray).id ∧
      ((⟨0⟩ : HogwildArray).view
          (HogwildArray.write ⟨0⟩ [0, 1] 7
            (⟨[(⟨[2, 2], [0, 0, 0, 0]⟩, 2)]⟩ : HogwildStore Nat))).bind
        (fun b => b.get [0, 1]) = some 7 ∧
      ((⟨0⟩ : HogwildArray).view
          (HogwildArray.write ⟨0⟩ [0, 1] 9
            (⟨[(⟨[2, 2], [0, 0, 0, 0]⟩, 2)]⟩ : HogwildStore Nat))).bind
        (fun b => b.get [0, 1]) = some 9) :=
  clone_write_read_aliasing ⟨[(⟨[2, 2], [0, 0, 0, 0]⟩, 1)]⟩
    ⟨[(⟨[2, 2], [0, 0, 0, 0]⟩, 2)]⟩ ⟨0⟩ ⟨0⟩ ⟨[2, 2], [0, 0, 0, 0]⟩ [0, 1] 7 9
    (by decide) (by decide) rfl (by decide)

/-- C2: order-independence for disjoint writes.  A batch of writes, each
performed through a clone of `h` (same allocation id) and each touching a
distinct coordinate, produces the same final store under every ordering:
`applyWrites` is invariant under permutation of the batch.  A concurrent
run of N writers is some interleaving, i.e. some permutation, of the batch,
so every schedule agrees with the sequential application in any order. -/
theorem disjoint_writes_order_independent {A : Type} (h : HogwildArray)
    (s : HogwildStore A) (ws1 ws2 : List (HogwildArray × List Nat × A))
    (hperm : ws1.Perm ws2) (hclones : ∀ w ∈ ws1, w.1.id = h.id)
    (hdisj : ws1.Pairwise fun w u => w.2.1 ≠ u.2.1) :
    applyWrites ws1 s = applyWrites ws2 s := by
  unfold applyWrites
  refine hperm.foldl_eq' ?_ s
  intro x hx y hy z
  by_cases hxy : x = y
  · subst hxy
    rfl
  · have hco : x.2.1 ≠ y.2.1 :=
      List.Pairwise.forall (fun u w hne2 => hne2.symm) hdisj hx hy hxy
    exact HogwildArray.write_comm x.1 y.1 x.2.1 y.2.1 x.2.2 y.2.2
      ((hclones x hx).trans (hclones y hy).symm) hco z

/-- C2 witness: two writers on disjoint coordinates of a concrete 2×2
buffer, in the two possible orders. -/
theorem disjoint_writes_order_independent_witness :
    applyWrites [(⟨0⟩, [0, 0], 1), (⟨0⟩, [1, 1], 2)]
        (⟨[(⟨[2, 2], [0, 0, 0, 0]⟩, 1)]⟩ : HogwildStore Nat) =
      applyWrites [(⟨0⟩, [1, 1], 2), (⟨0⟩, [0, 0], 1)]
        (⟨[(⟨[2, 2], [0, 0, 0, 0]⟩, 1)]⟩ : HogwildStore Nat) :=
  disjoint_writes_order_independent ⟨0⟩ _ _ _ (by decide) (by decide) (by decide)

lemma Hogwild.cell_clone_lookup_some {T : Type} (h : Hogwild) (s : CellStore T)
    (x : T) (rc : Nat) (hl : s.allocs[h.id]? = some (x, rc)) :
    h.clone s = (⟨h.id⟩, ⟨s.allocs.set h.id (x, rc + 1)⟩) := by
  unfold Hogwild.clone
  rw [hl]

lemma Hogwild.deref_set_lookup_some {T : Type} (h : Hogwild) (v : T)
    (s : CellStore T) (x : T) (rc : Nat) (hl : s.allocs[h.id]? = some (x, rc)) :
    h.deref_set v s = ⟨s.allocs.set h.id (v, rc)⟩ := by
  unfold Hogwild.deref_set
  rw [hl]

/-- C6: generic cell transparency.  `Hogwild::default()` allocates a fresh
shared cell (at a previously unused slot) initialized to the value type
default — `0` for `usize` — and for `(h2, s2) = h1.clone s1`, writing `1`
through `h1` and reading through `h2` returns `1`, then writing `2` through
`h2` and reading through `h1` returns `2`. -/
theorem hogwild_cell_transparency (T : Type) [Inhabited T] (s0 : CellStore T)
    (s : CellStore Nat) (h1 h2 : Hogwild) (s1 s2 : CellStore Nat)
    (hdef : Hogwild.default Nat s = (h1, s1)) (hclone : h1.clone s1 = (h2, s2)) :
    (Hogwild.default T s0).1.id = s0.allocs.length ∧
    (Hogwild.default T s0).1.deref (Hogwild.default T s0).2 =
      some (Inhabited.default : T) ∧
    h1.deref s1 = some 0 ∧
    h2.deref (h1.deref_set 1 s2) = some 1 ∧
    h1.deref (h2.deref_set 2 (h1.deref_set 1 s2)) = some 2 := by
  unfold Hogwild.default at hdef
  injection hdef with hh hs
  subst hh
  subst hs
  have hl1 : (s.allocs ++ [((Inhabited.default : Nat), 1)])[s.allocs.length]? =
      some (0, 1) := List.getElem?_concat_length _ _
  have hlt1 : s.allocs.length < (s.allocs ++ [((Inhabited.default : Nat), 1)]).length := by
    simp
  rw [Hogwild.cell_clone_lookup_some _ _ 0 1 hl1] at hclone
  injection hclone with hh2 hs2
  subst hh2
  subst hs2
  have hl2 : ((s.allocs ++ [((Inhabited.default : Nat), 1)]).set s.allocs.length
      (0, 2))[s.allocs.length]? = some (0, 2) :=
    List.getElem?_set_self (by simp)
  refine ⟨rfl, ?_, ?_, ?_, ?_⟩
  · unfold Hogwild.default Hogwild.deref
    simp [List.getElem?_concat_length]
  · unfold Hogwild.deref
    rw [hl1]
    rfl
  · rw [Hogwild.deref_set_lookup_some _ _ _ _ _ hl2]
    unfold Hogwild.deref
    rw [List.set_set, List.getElem?_set_self (by simp)]
    rfl
  · rw [Hogwild.deref_set_lookup_some _ _ _ _ _ hl2, List.set_set]
    have hl3 : ((s.allocs ++ [((Inhabited.default : Nat), 1)]).set s.allocs.length
        (1, 2))[s.allocs.length]? = some (1, 2) :=
      List.getElem?_set_self (by simp)
    rw [Hogwild.deref_set_lookup_some _ _ _ _ _ hl3, List.set_set]
    unfold Hogwild.deref
    rw [List.getElem?_set_self (by simp)]
    rfl

/-- C6 witness: concrete stores, starting from the empty heap. -/
theorem hogwild_cell_transparency_witness :
    (Hogwild.default Nat (⟨[]⟩ : CellStore Nat)).1.id = 0 ∧
    (Hogwild.default Nat (⟨[]⟩ : CellStore Nat)).1.deref
      (Hogwild.default Nat (⟨[]⟩ : CellStore Nat)).2 = some (Inhabited.default : Nat) ∧
    Hogwild.deref ⟨0⟩ (⟨[(0, 1)]⟩ : CellStore Nat) = some 0 ∧
    Hogwild.deref ⟨0⟩ (Hogwild.deref_set ⟨0⟩ 1 (⟨[(0, 2)]⟩ : CellStore Nat)) = some 1 ∧
    Hogwild.deref ⟨0⟩ (Hogwild.deref_set ⟨0⟩ 2
      (Hogwild.deref_set ⟨0⟩ 1 (⟨[(0, 2)]⟩ : CellStore Nat))) = some 2 := by
  have happ : (⟨[]⟩ : CellStore Nat).allocs.length = 0 := rfl
  exact happ ▸ hogwild_cell_transparency Nat ⟨[]⟩ ⟨[]⟩ ⟨0⟩ ⟨0⟩ ⟨[(0, 1)]⟩ ⟨[(0, 2)]⟩
    (by decide) (by decide)

/-- Shape of the allocation at slot `i` of the store, when present. -/
def shapeAt {A : Type} (s : HogwildStore A) (i : Nat) : Option (List Nat) :=
  (s.allocs[i]?).map fun p => p.1.shape

/-- C7: for a handle whose shared buffer is `a`, `subview` and `subview_mut`
fail (out-of-bounds, the `ndarray` panic modelled as `none`) exactly when the
requested axis or index lies outside the buffer extents, and succeed with
the dimension-reduced view for every in-range axis and index.  This is the
only checked failure mode: `ofArray`, `clone`, `view`, `view_mut` and element
writes are total functions of the store (no failure path in their types). -/
theorem subview_oob_condition {A : Type} (h : HogwildArray) (s : HogwildStore A)
    (a : NdArray A) (axis index : Nat) (hview : h.view s = some a) :
    ((h.subview axis index s).isSome ↔
      axis < a.shape.length ∧ index < a.shape.getD axis 0) ∧
    ((h.subview_mut axis index s).isSome ↔
      axis < a.shape.length ∧ index < a.shape.getD axis 0) ∧
    (∀ b : NdArray A, h.subview axis index s = some b →
      b.shape = a.shape.eraseIdx axis) := by
  unfold HogwildArray.subview HogwildArray.subview_mut
  rw [hview]
  by_cases hc : axis < a.shape.length ∧ index < a.shape.getD axis 0
  · refine ⟨?_, ?_, ?_⟩
    · simp [NdArray.subview, hc]
    · simp [NdArray.subview, hc]
    · intro b hb
      simp only [NdArray.subview, if_pos hc, Option.some_bind, Option.some.injEq] at hb
      rw [← hb]
  · refine ⟨?_, ?_, ?_⟩
    · simp [NdArray.subview, hc]
    · simp [NdArray.subview, hc]
    · intro b hb
      simp only [Option.some_bind] at hb
      unfold NdArray.subview at hb
      rw [if_neg hc] at hb
      cases hb

/-- C7 witness: a 2×3 buffer, in-range axis 0 and index 1. -/
theorem subview_oob_condition_witness :
    ((HogwildArray.subview ⟨0⟩ 0 1
        (⟨[(⟨[2, 3], [0, 0, 0, 0, 0, 0]⟩, 1)]⟩ : HogwildStore Nat)).isSome ↔
      0 < ([2, 3] : List Nat).length ∧ 1 < ([2, 3] : List Nat).getD 0 0) ∧
    ((HogwildArray.subview_mut ⟨0⟩ 0 1
        (⟨[(⟨[2, 3], [0, 0, 0, 0, 0, 0]⟩, 1)]⟩ : HogwildStore Nat)).isSome ↔
      0 < ([2, 3] : List Nat).length ∧ 1 < ([2, 3] : List Nat).getD 0 0) ∧
    (∀ b : NdArray Nat,
      HogwildArray.subview ⟨0⟩ 0 1
          (⟨[(⟨[2, 3], [0, 0, 0, 0, 0, 0]⟩, 1)]⟩ : HogwildStore Nat) = some b →
      b.shape = ([2, 3] : List Nat).eraseIdx 0) :=
  subview_oob_condition ⟨0⟩ ⟨[(⟨[2, 3], [0, 0, 0, 0, 0, 0]⟩, 1)]⟩
    ⟨[2, 3], [0, 0, 0, 0, 0, 0]⟩ 0 1 (by decide)

/-- C8: the shape of every shared buffer is fixed at construction and
unchanged by every store-mutating handle operation: `clone` and element
writes through a mutable view preserve the shape of every allocation, and
`ofArray` gives the new handle exactly the constructed array shape.  The
remaining operations (`view`, `view_mut`, `subview`, `subview_mut`,
`as_slice`) are read-only functions of the store and cannot change any
allocation at all; writes through views change element values only
(`NdArray.set` preserves `shape` by `NdArray.shape_set`). -/
theorem shape_fixed_at_construction {A : Type} (s : HogwildStore A)
    (h : HogwildArray) (a : NdArray A) (ix : List Nat) (v : A) (i : Nat) :
    shapeAt ((h.clone s).2) i = shapeAt s i ∧
    shapeAt (h.write ix v s) i = shapeAt s i ∧
    shapeAt (HogwildArray.ofArray a s).2 (HogwildArray.ofArray a s).1.id =
      some a.shape := by
  refine ⟨?_, ?_, ?_⟩
  · cases hl : s.allocs[h.id]? with
    | none =>
        unfold HogwildArray.clone
        rw [hl]
    | some p =>
        obtain ⟨b, rc⟩ := p
        rw [HogwildArray.clone_lookup_some h s b rc hl]
        by_cases hi : i = h.id
        · subst hi
          unfold shapeAt
          rw [List.getElem?_set_self (by simpa using lt_length_of_lookup hl), hl]
          rfl
        · unfold shapeAt
          rw [List.getElem?_set_ne (fun hc => hi hc.symm)]
  · cases hl : s.allocs[h.id]? with
    | none =>
        rw [HogwildArray.write_lookup_none h ix v s hl]
    | some p =>
        obtain ⟨b, rc⟩ := p
        rw [HogwildArray.write_lookup_some h ix v s b rc hl]
        by_cases hi : i = h.id
        · subst hi
          unfold shapeAt
          rw [List.getElem?_set_self (by simpa using lt_length_of_lookup hl), hl]
          simp [NdArray.shape_set]
        · unfold shapeAt
          rw [List.getElem?_set_ne (fun hc => hi hc.symm)]
  · unfold HogwildArray.ofArray shapeAt
    simp [List.getElem?_concat_length]

/-- C10: frame property of the accessors.  Obtaining a view, mutable view,
sub-view or slice is a read-only function of the store in this embedding
(their types return no store), so they change nothing; `clone` changes only
the reference count, leaving the array of every allocation unchanged; a
write through a mutable view changes no other allocation, and within its own
allocation changes no coordinate other than the written one. -/
theorem accessor_frame {A : Type} (s : HogwildStore A) (h : HogwildArray)
    (ix jx : List Nat) (v : A) (i j : Nat) (hj : j ≠ h.id) (hne : jx ≠ ix) :
    (((h.clone s).2).allocs[i]?).map Prod.fst = (s.allocs[i]?).map Prod.fst ∧
    (h.write ix v s).allocs[j]? = s.allocs[j]? ∧
    ((h.write ix v s).allocs[h.id]?).map (fun p => p.1.get jx) =
      (s.allocs[h.id]?).map (fun p => p.1.get jx) := by
  refine ⟨?_, ?_, ?_⟩
  · cases hl : s.allocs[h.id]? with
    | none =>
        unfold HogwildArray.clone
        rw [hl]
    | some p =>
        obtain ⟨b, rc⟩ := p
        rw [HogwildArray.clone_lookup_some h s b rc hl]
        by_cases hi : i = h.id
        · subst hi
          rw [List.getElem?_set_self (by simpa using lt_length_of_lookup hl), hl]
          rfl
        · rw [List.getElem?_set_ne (fun hc => hi hc.symm)]
  · cases hl : s.allocs[h.id]? with
    | none =>
        rw [HogwildArray.write_lookup_none h ix v s hl]
    | some p =>
        obtain ⟨b, rc⟩ := p
        rw [HogwildArray.write_lookup_some h ix v s b rc hl]
        exact List.getElem?_set_ne (fun hc => hj hc.symm)
  · cases hl : s.allocs[h.id]? with
    | none =>
        rw [HogwildArray.write_lookup_none h ix v s hl, hl]
    | some p =>
        obtain ⟨b, rc⟩ := p
        rw [HogwildArray.write_lookup_some h ix v s b rc hl]
        rw [List.getElem?_set_self (by simpa using lt_length_of_lookup hl)]
        simp [NdArray.get_set_ne b ix jx v (fun hc => hne hc.symm)]

/-- C10 witness: a concrete 2×2 buffer, writing `(0, 0)` and reading the
untouched coordinate `(1, 1)` and the untouched slot `1`. -/
theorem accessor_frame_witness :
    (1 : Nat) ≠ (0 : Nat) ∧ ([1, 1] : List Nat) ≠ [0, 0] ∧
    ((((HogwildArray.clone ⟨0⟩
          (⟨[(⟨[2, 2], [0, 0, 0, 0]⟩, 1)]⟩ : HogwildStore Nat)).2).allocs[0]?).map
        Prod.fst =
      (((⟨[(⟨[2, 2], [0, 0, 0, 0]⟩, 1)]⟩ : HogwildStore Nat)).allocs[0]?).map
        Prod.fst ∧
      (HogwildArray.write ⟨0⟩ [0, 0] 5
          (⟨[(⟨[2, 2], [0, 0, 0, 0]⟩, 1)]⟩ : HogwildStore Nat)).allocs[1]? =
        ((⟨[(⟨[2, 2], [0, 0, 0, 0]⟩, 1)]⟩ : HogwildStore Nat)).allocs[1]? ∧
      ((HogwildArray.write ⟨0⟩ [0, 0] 5
          (⟨[(⟨[2, 2], [0, 0, 0, 0]⟩, 1)]⟩ : HogwildStore Nat)).allocs[0]?).map
        (fun p => p.1.get [1, 1]) =
      (((⟨[(⟨[2, 2], [0, 0, 0, 0]⟩, 1)]⟩ : HogwildStore Nat)).allocs[0]?).map
        (fun p => p.1.get [1, 1])) :=
  ⟨by decide, by decide,
    accessor_frame ⟨[(⟨[2, 2], [0, 0, 0, 0]⟩, 1)]⟩ ⟨0⟩ [0, 0] [1, 1] 5 0 1
      (by decide) (by decide)⟩
